import Mathlib

/-!
Shallow embedding of the key-phrase clustering pipeline
(`core/data_cleaner.py`, `core/clusterizer.py`, `controller/app_controller.py`)
and proofs about its cleaning and clustering stages.

External collaborators of the source (the spaCy NER model, the NLTK
tokenizer/lemmatizer, the sentence-embedding model and scikit-learn KMeans)
are passed in as oracle parameters; everything the repository's own code does
with their outputs is embedded directly.
-/

namespace KeyCluster

/-! ## Python string primitives (ASCII model) -/

/-- Whitespace character class of Python `str.split()` / `str.strip()`. -/
def isPyWs (c : Char) : Bool :=
  c = ' ' || c = '\t' || c = '\n' || c = '\r' || c.toNat = 11 || c.toNat = 12

/-- Python `str.strip()` is falsy (empty) iff every character is whitespace. -/
def pyBlank (s : String) : Bool := s.data.all isPyWs

/-- ASCII model of Python `str.lower` on one character. -/
def pyLowerChar (c : Char) : Char :=
  if 65 ≤ c.toNat ∧ c.toNat ≤ 90 then Char.ofNat (c.toNat + 32) else c

/-- ASCII model of Python `str.lower`. -/
def pyLower (s : String) : String := ⟨s.data.map pyLowerChar⟩

/-- Splits a character list at every character satisfying `p`, keeping empty pieces. -/
def splitOnPred (p : Char → Bool) : List Char → List Char → List (List Char)
  | [], acc => [acc.reverse]
  | c :: cs, acc =>
    if p c then acc.reverse :: splitOnPred p cs [] else splitOnPred p cs (c :: acc)

/-- Python `str.split()` with no separator: split on whitespace, dropping empty pieces. -/
def pySplitWs (s : String) : List String :=
  ((splitOnPred isPyWs s.data []).map (fun l => (⟨l⟩ : String))).filter (fun t => t ≠ "")

/-- Character class of the regex `\w` (ASCII model). -/
def isWordChar (c : Char) : Bool := c.isAlphanum || c = '_'

/-- Model of `re.findall(r"\b\w+\b", s)`: the maximal runs of word characters. -/
def pyFindWords (s : String) : List String :=
  ((splitOnPred (fun c => !(isWordChar c)) s.data []).map (fun l => (⟨l⟩ : String))).filter
    (fun t => t ≠ "")

def listPrefixOfB : List Char → List Char → Bool
  | [], _ => true
  | _ :: _, [] => false
  | a :: as, b :: bs => a = b && listPrefixOfB as bs

def listInfixOfB (n : List Char) : List Char → Bool
  | [] => n.isEmpty
  | b :: bs => listPrefixOfB n (b :: bs) || listInfixOfB n bs

/-- Python substring test `needle in hay`; the empty string is a substring of everything. -/
def pyIn (needle hay : String) : Bool := listInfixOfB needle.data hay.data

/-- Code-point lexicographic comparison on character lists (Python string `<=`). -/
def listLeB : List Char → List Char → Bool
  | [], _ => true
  | _ :: _, [] => false
  | a :: as, b :: bs => if a = b then listLeB as bs else decide (a.toNat < b.toNat)

def strLeB (a b : String) : Bool := listLeB a.data b.data

def insertLeStr (x : String) : List String → List String
  | [] => [x]
  | y :: ys => if strLeB x y then x :: y :: ys else y :: insertLeStr x ys

/-- Python `sorted` on a list of strings (ascending, code-point lexicographic). -/
def pySorted : List String → List String
  | [] => []
  | x :: xs => insertLeStr x (pySorted xs)

/-! ## Insertion-ordered association maps, modelling Python `dict` -/

abbrev AssocMap (κ ν : Type) := List (κ × ν)

def lookupA {κ ν : Type} [DecidableEq κ] : AssocMap κ ν → κ → Option ν
  | [], _ => none
  | (k', v) :: rest, k => if k' = k then some v else lookupA rest k

/-- Python `d.setdefault(k, []).append(p)` (also `defaultdict(list)` index-append). -/
def setdefaultAppend {κ ν : Type} [DecidableEq κ] :
    AssocMap κ (List ν) → κ → ν → AssocMap κ (List ν)
  | [], k, p => [(k, [p])]
  | (k', v) :: rest, k, p =>
    if k' = k then (k', v ++ [p]) :: rest else (k', v) :: setdefaultAppend rest k p

/-- Python `d[k] = v`: overwrite in place when the key exists, append otherwise. -/
def mapAssign {κ ν : Type} [DecidableEq κ] : AssocMap κ ν → κ → ν → AssocMap κ ν
  | [], k, v => [(k, v)]
  | (k', v') :: rest, k, v =>
    if k' = k then (k', v) :: rest else (k', v') :: mapAssign rest k v

/-- Mapping from cluster name to member phrases, the pipeline's accumulator. -/
abbrev ClusterMap := AssocMap String (List String)

/-! ## data_cleaner.py -/

/-- Python `word.isalnum()`: nonempty and all characters alphanumeric (ASCII model). -/
def pyIsAlnum (s : String) : Bool := !(s.data.isEmpty) && s.data.all Char.isAlphanum

/-- Modelled from the spec: the NLTK English stopword list (`stopwords.words("english")`),
external corpus data not under src/; entries containing an apostrophe are omitted as
no theorem here depends on them. -/
def nltkStopWords : List String :=
  ["i", "me", "my", "myself", "we", "our", "ours", "ourselves", "you", "your", "yours",
   "yourself", "yourselves", "he", "him", "his", "himself", "she", "her", "hers",
   "herself", "it", "its", "itself", "they", "them", "their", "theirs", "themselves",
   "what", "which", "who", "whom", "this", "that", "these", "those", "am", "is", "are",
   "was", "were", "be", "been", "being", "have", "has", "had", "having", "do", "does",
   "did", "doing", "a", "an", "the", "and", "but", "if", "or", "because", "as", "until",
   "while", "of", "at", "by", "for", "with", "about", "against", "between", "into",
   "through", "during", "before", "after", "above", "below", "to", "from", "up", "down",
   "in", "out", "on", "off", "over", "under", "again", "further", "then", "once", "here",
   "there", "when", "where", "why", "how", "all", "any", "both", "each", "few", "more",
   "most", "other", "some", "such", "no", "nor", "not", "only", "own", "same", "so",
   "than", "too", "very", "s", "t", "can", "will", "just", "don", "should", "now"]

/-- RemoveDuplicates._lemmatize_phrase: lowercase, tokenize, keep alphanumeric
non-stopword tokens, lemmatize, re-join with spaces. The NLTK `word_tokenize` and
`WordNetLemmatizer.lemmatize` are external and passed as oracles. -/
def lemmatizePhrase (tokenize : String → List String) (lemmatize : String → String)
    (stop : List String) (phrase : String) : String :=
  String.intercalate " "
    (((tokenize (pyLower phrase)).filter (fun w => pyIsAlnum w && !(stop.contains w))).map
      lemmatize)

/-- Signature computed for each phrase in RemoveDuplicates.delete: the whitespace-split
lowercased tokens are sorted and re-joined, then `_lemmatize_phrase` is applied. -/
def dupSignature (tokenize : String → List String) (lemmatize : String → String)
    (stop : List String) (phrase : String) : String :=
  lemmatizePhrase tokenize lemmatize stop
    (String.intercalate " " (pySorted (pySplitWs (pyLower phrase))))

/-- Loop of RemoveDuplicates.delete, generic in the element type and keyed by a
signature function: first occurrence of a signature is kept, later ones are removed. -/
def dedupBy {α : Type} (sig : α → String) : List α → List String → List α × List α
  | [], _ => ([], [])
  | p :: ps, seen =>
    if sig p ∈ seen then
      let r := dedupBy sig ps seen
      (r.1, p :: r.2)
    else
      let r := dedupBy sig ps (sig p :: seen)
      (p :: r.1, r.2)

/-- RemoveDuplicates.delete. -/
def removeDuplicatesDelete (tokenize : String → List String) (lemmatize : String → String)
    (stop : List String) (phrases : List String) : List String × List String :=
  dedupBy (dupSignature tokenize lemmatize stop) phrases []

/-- Predicate of the RemoveTrashPhrase.delete loop: `any(word in phrase for word in trash)`. -/
def trashMatch (trashWords : List String) (phrase : String) : Bool :=
  trashWords.any (fun w => pyIn w phrase)

def trashLoop (trashWords : List String) : List String → List String × List String
  | [] => ([], [])
  | p :: ps =>
    let r := trashLoop trashWords ps
    if trashMatch trashWords p then (r.1, p :: r.2) else (p :: r.1, r.2)

/-- RemoveTrashPhrase.delete. -/
def trashPhraseDelete (phrases trashWords : List String) : List String × List String :=
  if (trashWords.filter (fun w => !(pyBlank w))).isEmpty then (phrases, [])
  else trashLoop trashWords phrases

/-! ## clusterizer.py: ClusterByEntity -/

/-- Named entities detected in a phrase, as (surface text, label) pairs; the spaCy
model is external and passed as an oracle. -/
abbrev NerOracle := String → List (String × String)

/-- Bucket-building pass of ClusterByEntity.cluster: empty phrases are skipped, and a
phrase joins the bucket of each detected entity whose label is allowed and whose
lowercased text is not a stop entity. -/
def entityRawBuckets (ner : NerOracle) (phrases entities stopEntity : List String) :
    ClusterMap :=
  phrases.foldl (fun acc p =>
    if p = "" then acc
    else (ner p).foldl (fun acc2 ent =>
      if entities.contains ent.2 && !(stopEntity.contains (pyLower ent.1)) then
        setdefaultAppend acc2 ent.1 p
      else acc2) acc) []

/-- Size filter of ClusterByEntity.cluster: keep buckets with `1 < len(value) < 40`. -/
def entityFiltered (ner : NerOracle) (phrases entities stopEntity : List String) :
    ClusterMap :=
  (entityRawBuckets ner phrases entities stopEntity).filter
    (fun kv => 1 < kv.2.length && kv.2.length < 40)

/-- Back-fill pass of ClusterByEntity.cluster: every phrase not in any kept bucket is
appended to each kept bucket whose entity key occurs (lowercased) inside the phrase. -/
def entityBackfill (ner : NerOracle) (phrases entities stopEntity : List String) :
    ClusterMap :=
  let filtered := entityFiltered ner phrases entities stopEntity
  let inClusters := (filtered.map Prod.snd).flatten
  let without := phrases.filter (fun p => !(inClusters.contains p))
  without.foldl (fun acc p =>
    (filtered.map Prod.fst).foldl (fun acc2 e =>
      if pyIn (pyLower e) (pyLower p) && !(((lookupA acc2 e).getD []).contains p) then
        setdefaultAppend acc2 e p
      else acc2) acc) filtered

/-- ClusterByEntity.cluster. -/
def entityCluster (ner : NerOracle) (phrases entities stopEntity : List String) :
    ClusterMap × List String :=
  if (stopEntity.filter (fun w => !(pyBlank w))).isEmpty then ([], phrases)
  else if entities.isEmpty then ([], phrases)
  else
    let final := entityBackfill ner phrases entities stopEntity
    let inFinal := (final.map Prod.snd).flatten
    (final, phrases.filter (fun p => !(inFinal.contains p)))

/-! ## clusterizer.py: ClusterByUserKeys -/

/-- Inner loop of ClusterByUserKeys.cluster for one phrase: for each keyword whose
lowercased text occurs in the lowercased phrase, append the phrase under that keyword. -/
def userKeysStep (myKeys : List String) (acc : ClusterMap) (p : String) : ClusterMap :=
  myKeys.foldl
    (fun acc2 k => if pyIn (pyLower k) (pyLower p) then setdefaultAppend acc2 k p else acc2)
    acc

/-- ClusterByUserKeys.cluster. -/
def userKeysCluster (phrases : List String) (clusters : ClusterMap)
    (myKeys : List String) : ClusterMap × List String :=
  if (myKeys.filter (fun w => !(pyBlank w))).isEmpty then (clusters, phrases)
  else
    let m := phrases.foldl (userKeysStep myKeys) clusters
    let inClusters := (m.map Prod.snd).flatten
    (m, phrases.filter (fun p => !(inClusters.contains p)))

/-! ## clusterizer.py: ClusterUsingKMeans -/

def distinctFirst (ws : List String) : List String :=
  ws.foldl (fun acc w => if acc.contains w then acc else acc ++ [w]) []

/-- Python `collections.Counter(ws)` as items in first-occurrence order with counts. -/
def counterItems (ws : List String) : List (String × Nat) :=
  (distinctFirst ws).map (fun w => (w, ws.count w))

def insertCountDesc (x : String × Nat) : List (String × Nat) → List (String × Nat)
  | [] => [x]
  | y :: ys => if y.2 ≤ x.2 then x :: y :: ys else y :: insertCountDesc x ys

/-- Stable descending sort by count, modelling `Counter.most_common`. -/
def sortCountDesc : List (String × Nat) → List (String × Nat)
  | [] => []
  | x :: xs => insertCountDesc x (sortCountDesc xs)

/-- Cluster naming in ClusterUsingKMeans.cluster: the three most frequent non-stopword
words of the member phrases, joined by " / ". -/
def clusterName (stop : List String) (phrasesInCluster : List String) : String :=
  let allWords :=
    (phrasesInCluster.map
      (fun p => (pyFindWords (pyLower p)).filter (fun w => !(stop.contains w)))).flatten
  String.intercalate " / " (((sortCountDesc (counterItems allWords)).take 3).map Prod.fst)

/-- Grouping of phrases by their KMeans labels (`defaultdict(list)` over `zip`). -/
def kmeansGroups (labels : List Int) (phrases : List String) : AssocMap Int (List String) :=
  (labels.zip phrases).foldl (fun acc lp => setdefaultAppend acc lp.1 lp.2) []

/-- Names derived per label (labels equal to -1 are skipped). -/
def kmeansNames (stop : List String) (groups : AssocMap Int (List String)) :
    AssocMap Int String :=
  (groups.filter (fun g => g.1 != -1)).map (fun g => (g.1, clusterName stop g.2))

/-- Name chosen when merging a labelled group: the sentinel for label -1, otherwise the
derived name with a `Cluster {label}` fallback. -/
def kmeansLabelName (stop : List String) (groups : AssocMap Int (List String))
    (l : Int) : String :=
  if l = -1 then "No cluster chosen"
  else (lookupA (kmeansNames stop groups) l).getD ("Cluster " ++ toString l)

/-- Name/phrase-list pairs assigned into the cluster map by ClusterUsingKMeans.cluster. -/
def kmeansAssignments (stop : List String) (labels : List Int) (phrases : List String) :
    List (String × List String) :=
  let groups := kmeansGroups labels phrases
  groups.map (fun g => (kmeansLabelName stop groups g.1, g.2))

/-- Merge loop `self.clusters[name] = phrases_in_cluster` of ClusterUsingKMeans.cluster. -/
def kmeansMerge (clusters : ClusterMap) (asg : List (String × List String)) : ClusterMap :=
  asg.foldl (fun acc nv => mapAssign acc nv.1 nv.2) clusters

/-- Model of `numpy.gradient` on a 1-D sequence with unit spacing and edge order 1;
numpy raises a ValueError when fewer than two samples are given. -/
def npGradient (ys : List ℚ) : Except String (List ℚ) :=
  if ys.length < 2 then
    .error "Shape of array too small to calculate a numerical gradient"
  else
    .ok ((List.range ys.length).map (fun i =>
      if i = 0 then ys[1]! - ys[0]!
      else if i = ys.length - 1 then ys[i]! - ys[i - 1]!
      else (ys[i + 1]! - ys[i - 1]!) / 2))

def argmaxAux : List ℚ → Nat → Nat → ℚ → Nat
  | [], _, bi, _ => bi
  | x :: xs, i, bi, bv =>
    if bv < x then argmaxAux xs (i + 1) i x else argmaxAux xs (i + 1) bi bv

/-- Model of `numpy.argmax`: index of the first occurrence of the maximum. -/
def argmaxIdx : List ℚ → Nat
  | [] => 0
  | x :: xs => argmaxAux xs 1 0 x

/-- Inertia values recorded for each candidate K in `range(min_clusters, max_clusters + 1)`;
the KMeans fit is external, its inertia per K passed as an oracle. -/
def inertiaList (minC maxC : Nat) (inertiaOf : Nat → ℚ) : List ℚ :=
  (List.range' minC (maxC + 1 - minC)).map inertiaOf

/-- K selection of ClusterUsingKMeans.cluster: `np.argmax(np.gradient(inertias)) + min_clusters`. -/
def optimalK (minC maxC : Nat) (inertiaOf : Nat → ℚ) : Except String Nat :=
  (npGradient (inertiaList minC maxC inertiaOf)).map (fun g => minC + argmaxIdx g)

/-- ClusterUsingKMeans.cluster, with the sentence-embedding model and KMeans as
oracles: `inertiaOf k` is the inertia of the fit with k clusters and `labelsOf k` the
label assignment of the final fit. -/
def kmeansCluster (stop : List String) (inertiaOf : Nat → ℚ) (labelsOf : Nat → List Int)
    (phrases : List String) (clusters : ClusterMap) (minC maxC : Nat) :
    Except String ClusterMap :=
  if phrases.isEmpty then .ok clusters
  else
    match optimalK minC maxC inertiaOf with
    | .error e => .error e
    | .ok k => .ok (kmeansMerge clusters (kmeansAssignments stop (labelsOf k) phrases))

/-! ## Constructor validation (app_controller.py, clusterizer.py) -/

/-- Python values, as far as the constructors' isinstance checks observe them. -/
inductive PyVal : Type
  | str (s : String)
  | int (n : Int)
  | list (l : List PyVal)
  | dict (l : List (PyVal × PyVal))
  | pynone
  | other

def isStrV : PyVal → Bool
  | .str _ => true
  | _ => false

def isListOfStr : PyVal → Bool
  | .list l => l.all isStrV
  | _ => false

def isListV : PyVal → Bool
  | .list _ => true
  | _ => false

/-- Check `isinstance(clusters, dict)` with string keys and list values. -/
def isStrKeyListValDict : PyVal → Bool
  | .dict l => l.all (fun kv => isStrV kv.1 && isListV kv.2)
  | _ => false

inductive LoaderKind : Type
  | fromFile (path : String)
  | asText (rows : List PyVal)

/-- Controller.__init__ dispatch on the phrase source. -/
def controllerInit (rowData : PyVal) : Except String LoaderKind :=
  match rowData with
  | .str s => .ok (.fromFile s)
  | .list l => .ok (.asText l)
  | _ => .error "Uncorrect data."

/-- ClusterUsingKMeans.__init__ validation. -/
def kmeansInit (phrases clusters minClusters maxClusters : PyVal) :
    Except String (Int × Int) :=
  if !(isListOfStr phrases) then .error "Phrases must be a list of strings."
  else if !(match clusters with
            | .pynone => true
            | d => isStrKeyListValDict d) then
    .error "Clusters must be a dictionary with string keys and list-of-strings values."
  else
    match minClusters, maxClusters with
    | .int mn, .int mx =>
      if mn < 1 ∨ mx < 1 then
        .error "min_clusters and max_clusters must be positive integers."
      else if mn > mx then .error "min_clusters cannot be greater than max_clusters."
      else .ok (mn, mx)
    | _, _ => .error "min_clusters and max_clusters must be integers."

/-- ClusterByEntity.__init__ validation: the entities argument is never checked — the
second source check repeats the phrases condition under an entities error message. -/
def entityInit (phrases entities stopEntity : PyVal) : Except String PyVal :=
  if !(isListOfStr phrases) then .error "Phrases must be a list of strings."
  else if !(isListOfStr phrases) then .error "Entities flag must be a boolean (True/False)."
  else
    match stopEntity with
    | .pynone => .ok entities
    | se =>
      if !(isListOfStr se) then .error "Stop_entity must be a list of strings if provided."
      else .ok entities

/-- ClusterByUserKeys.__init__ validation. -/
def userKeysInit (phrases clusters myKeys : PyVal) : Except String Unit :=
  if !(isListOfStr phrases) then .error "Phrases must be a list of strings."
  else if !(match clusters with
            | .pynone => true
            | d => isStrKeyListValDict d) then
    .error "Clusters must be a dictionary with string keys and list-of-strings values."
  else if !(match myKeys with
            | .pynone => true
            | k => isListOfStr k) then
    .error "My_keys must be a list of strings if provided."
  else .ok ()

/-! ## Specification-side definitions used to characterize the stages -/

/-- Last value assigned to key `k` by a sequence of name/value assignments
("last writer wins"). -/
def lastAssigned (asg : List (String × List String)) (k : String) : Option (List String) :=
  asg.foldl (fun acc nv => if nv.1 = k then some nv.2 else acc) none

/-- Pairs each list element with its position, starting at `i`. -/
def withIdx : Nat → List String → List (Nat × String)
  | _, [] => []
  | i, p :: ps => (i, p) :: withIdx (i + 1) ps

/-- Phrases a keyword-cluster key `k` receives from the keyword stage: each phrase
whose lowercased text contains `pyLower k`, once per occurrence of `k` in the
keyword list. -/
def keyContrib (myKeys : List String) (phrases : List String) (k : String) : List String :=
  (phrases.map (fun p =>
    if pyIn (pyLower k) (pyLower p) then List.replicate (myKeys.count k) p else [])).flatten

/-! ## Helper lemmas: association maps -/

theorem lookupA_setdefaultAppend {κ ν : Type} [DecidableEq κ]
    (m : AssocMap κ (List ν)) (k q : κ) (p : ν) :
    lookupA (setdefaultAppend m k p) q =
      if k = q then some ((lookupA m k).getD [] ++ [p]) else lookupA m q := by
  induction m with
  | nil =>
    by_cases h : k = q <;> simp [setdefaultAppend, lookupA, h]
  | cons a rest ih =>
    obtain ⟨ak, av⟩ := a
    by_cases h1 : ak = k
    · subst h1
      by_cases h2 : ak = q <;> simp [setdefaultAppend, lookupA, h2]
    · by_cases h2 : ak = q
      · have hkq : ¬ k = q := fun h => h1 (h2.trans h.symm)
        have hqk : ¬ q = k := fun h => hkq h.symm
        simp [setdefaultAppend, lookupA, h1, h2, hkq, hqk]
      · simp [setdefaultAppend, lookupA, h1, h2, ih]

theorem lookupA_mapAssign {κ ν : Type} [DecidableEq κ]
    (m : AssocMap κ ν) (k q : κ) (v : ν) :
    lookupA (mapAssign m k v) q = if k = q then some v else lookupA m q := by
  induction m with
  | nil =>
    by_cases h : k = q <;> simp [mapAssign, lookupA, h]
  | cons a rest ih =>
    obtain ⟨ak, av⟩ := a
    by_cases h1 : ak = k
    · subst h1
      by_cases h2 : ak = q <;> simp [mapAssign, lookupA, h2]
    · by_cases h2 : ak = q
      · have hkq : ¬ k = q := fun h => h1 (h2.trans h.symm)
        have hqk : ¬ q = k := fun h => hkq h.symm
        simp [mapAssign, lookupA, h1, h2, hkq, hqk]
      · simp [mapAssign, lookupA, h1, h2, ih]

/-! ## Helper lemmas: trash filtering -/

theorem trashLoop_eq (t : List String) (l : List String) :
    trashLoop t l =
      (l.filter (fun p => !(trashMatch t p)), l.filter (fun p => trashMatch t p)) := by
  induction l with
  | nil => simp [trashLoop]
  | cons p ps ih =>
    simp only [trashLoop, ih]
    cases h : trashMatch t p <;> simp [h]

/-! ## Helper lemmas: keyword clustering -/

theorem lookupA_foldKeys (p q : String) (ks : List String) :
    ∀ m : ClusterMap,
      lookupA (ks.foldl
        (fun acc k => if pyIn (pyLower k) (pyLower p) then setdefaultAppend acc k p else acc)
        m) q =
      if pyIn (pyLower q) (pyLower p) ∧ 0 < ks.count q then
        some ((lookupA m q).getD [] ++ List.replicate (ks.count q) p)
      else lookupA m q := by
  induction ks with
  | nil => intro m; simp
  | cons k rest ih =>
    intro m
    rw [List.foldl_cons, ih]
    by_cases hk : k = q
    · subst hk
      cases hm : pyIn (pyLower k) (pyLower p)
      · simp [hm]
      · have hsd := lookupA_setdefaultAppend m k k p
        rw [if_pos rfl] at hsd
        rcases Nat.eq_zero_or_pos (rest.count k) with h0 | h0
        · simp [hm, hsd, h0, List.count_cons, List.replicate_succ]
        · simp [hm, hsd, h0, List.count_cons, List.replicate_succ, List.append_assoc]
    · have hl : ∀ m0 : ClusterMap,
          lookupA (if pyIn (pyLower k) (pyLower p) then setdefaultAppend m0 k p else m0) q =
            lookupA m0 q := by
        intro m0
        cases hm : pyIn (pyLower k) (pyLower p)
        · simp
        · simp [lookupA_setdefaultAppend, hk]
      have hqk : ¬ q = k := fun h => hk h.symm
      simp only [hl]
      simp [List.count_cons, hqk]

theorem lookupA_foldPhrases (myKeys : List String) (ps : List String) :
    ∀ (m : ClusterMap) (q : String),
      lookupA (ps.foldl (userKeysStep myKeys) m) q =
        if keyContrib myKeys ps q = [] then lookupA m q
        else some ((lookupA m q).getD [] ++ keyContrib myKeys ps q) := by
  induction ps with
  | nil => intro m q; simp [keyContrib]
  | cons p rest ih =>
    intro m q
    rw [List.foldl_cons, ih]
    have hstep : lookupA (userKeysStep myKeys m p) q =
        if pyIn (pyLower q) (pyLower p) ∧ 0 < myKeys.count q then
          some ((lookupA m q).getD [] ++ List.replicate (myKeys.count q) p)
        else lookupA m q := lookupA_foldKeys p q myKeys m
    have hcontrib : keyContrib myKeys (p :: rest) q =
        (if pyIn (pyLower q) (pyLower p) then List.replicate (myKeys.count q) p else []) ++
          keyContrib myKeys rest q := by
      simp [keyContrib]
    rw [hcontrib]
    cases hm : pyIn (pyLower q) (pyLower p)
    · rw [hm] at hstep
      simp only [Bool.false_eq_true, false_and, if_false] at hstep
      simp [hstep, hm]
    · rw [hm] at hstep
      rcases Nat.eq_zero_or_pos (myKeys.count q) with h0 | h0
      · rw [h0] at hstep
        simp only [lt_irrefl, and_false, if_false] at hstep
        simp [hstep, hm, h0]
      · have hne : List.replicate (myKeys.count q) p ≠ [] := by
          intro hh
          have hlen := congrArg List.length hh
          simp at hlen
          omega
        rw [if_pos ⟨rfl, h0⟩] at hstep
        by_cases hr : keyContrib myKeys rest q = []
        · simp [hstep, hm, hr, hne]
        · simp [hstep, hm, hr, hne, List.append_assoc]

/-! ## Helper lemmas: KMeans merge ("last writer wins") -/

theorem lastAssigned_from (k : String) (asg : List (String × List String)) :
    ∀ init : Option (List String),
      asg.foldl (fun acc nv => if nv.1 = k then some nv.2 else acc) init =
        match lastAssigned asg k with
        | some v => some v
        | none => init := by
  induction asg with
  | nil => intro init; simp [lastAssigned]
  | cons nv rest ih =>
    intro init
    simp only [List.foldl_cons, lastAssigned]
    rw [ih, ih (if nv.1 = k then some nv.2 else none)]
    cases hr : lastAssigned rest k with
    | some v => simp
    | none =>
      by_cases hk : nv.1 = k <;> simp [hk]

theorem lookupA_kmeansMerge (k : String) (asg : List (String × List String)) :
    ∀ m : ClusterMap,
      lookupA (kmeansMerge m asg) k =
        match lastAssigned asg k with
        | some v => some v
        | none => lookupA m k := by
  induction asg with
  | nil => intro m; simp [kmeansMerge, lastAssigned]
  | cons nv rest ih =>
    intro m
    simp only [kmeansMerge] at ih ⊢
    rw [List.foldl_cons, ih]
    have h1 : lastAssigned (nv :: rest) k =
        match lastAssigned rest k with
        | some v => some v
        | none => if nv.1 = k then some nv.2 else none := by
      show List.foldl (fun acc nv => if nv.1 = k then some nv.2 else acc) none (nv :: rest) = _
      rw [List.foldl_cons]
      exact lastAssigned_from k rest (if nv.1 = k then some nv.2 else none)
    rw [h1]
    cases hr : lastAssigned rest k with
    | some v => simp
    | none =>
      by_cases hk : nv.1 = k
      · simp [hk, lookupA_mapAssign]
      · simp [hk, lookupA_mapAssign]

/-! ## Claim theorems -/

/-- Claim C7: RemoveTrashPhrase.delete is a no-op returning `(P, [])` when every
trash-word entry is blank after trimming; otherwise it returns the order-preserving
partition of the phrases in which a phrase is removed iff some trash-list entry is a
literal, case-sensitive substring of it; in particular on phrases `["abc", "xyz"]` with
trash list `["ab"]` it returns `(["xyz"], ["abc"])`. -/
theorem claim_C7 (phrases trashWords : List String) :
    (trashPhraseDelete phrases trashWords =
      if (trashWords.filter (fun w => !(pyBlank w))).isEmpty then (phrases, [])
      else (phrases.filter (fun p => !(trashMatch trashWords p)),
            phrases.filter (fun p => trashMatch trashWords p))) ∧
    trashPhraseDelete ["abc", "xyz"] ["ab"] = (["xyz"], ["abc"]) := by
  refine ⟨?_, by decide⟩
  unfold trashPhraseDelete
  split <;> simp [trashLoop_eq]

/-- Claim C5 is false as stated: with trash list `["ab", " "]`, the stage does not
behave as if the list contained only `"ab"` — the blank entry `" "` also matches, so
the phrase `"x y"` (which does not contain `"ab"`) is removed, while with the list
`["ab"]` it is kept. -/
theorem claim_C5_counterexample :
    trashPhraseDelete ["x y"] ["ab", " "] = ([], ["x y"]) ∧
    trashPhraseDelete ["x y"] ["ab"] = (["x y"], []) := by
  decide

/-- Claim C5 amended: blank entries of the trash-word and user-keyword lists are used
only to decide whether the feature is enabled — when no entry is non-blank the stage
is a no-op — but once one non-blank entry exists, matching uses the full supplied
list, blanks included (an empty entry matches every phrase and a whitespace entry
matches phrases containing that whitespace). -/
theorem claim_C5_amended :
    (∀ phrases trash : List String,
      (trash.filter (fun w => !(pyBlank w))).isEmpty = true →
        trashPhraseDelete phrases trash = (phrases, [])) ∧
    (∀ (phrases : List String) (clusters : ClusterMap) (keys : List String),
      (keys.filter (fun w => !(pyBlank w))).isEmpty = true →
        userKeysCluster phrases clusters keys = (clusters, phrases)) ∧
    (∀ phrases trash : List String,
      (trash.filter (fun w => !(pyBlank w))).isEmpty = false →
        trashPhraseDelete phrases trash =
          (phrases.filter (fun p => !(trashMatch trash p)),
           phrases.filter (fun p => trashMatch trash p))) ∧
    trashPhraseDelete ["x y"] ["ab", " "] = ([], ["x y"]) ∧
    userKeysCluster ["banana"] [] ["apple", ""] = ([("", ["banana"])], []) := by
  refine ⟨?_, ?_, ?_, by decide, by decide⟩
  · intro phrases trash h
    simp [trashPhraseDelete, h]
  · intro phrases clusters keys h
    simp [userKeysCluster, h]
  · intro phrases trash h
    simp [trashPhraseDelete, h, trashLoop_eq]

theorem claim_C5_witness :
    ((([" "] : List String).filter (fun w => !(pyBlank w))).isEmpty = true) ∧
    trashPhraseDelete ["a", "b"] [" "] = (["a", "b"], []) :=
  ⟨by decide, claim_C5_amended.1 ["a", "b"] [" "] (by decide)⟩

/-- Claim C4: ClusterByEntity.cluster is a no-op returning `({}, P)` whenever the
stop-entity list has no non-blank entry, and likewise when the allowed entity label
list is empty. -/
theorem claim_C4 (ner : NerOracle) (phrases entities stopEntity : List String)
    (h : (stopEntity.filter (fun w => !(pyBlank w))).isEmpty = true ∨ entities = []) :
    entityCluster ner phrases entities stopEntity = ([], phrases) := by
  rcases h with h | h
  · simp [entityCluster, h]
  · subst h
    unfold entityCluster
    split
    · rfl
    · simp

theorem claim_C4_witness :
    (((["", "  "] : List String).filter (fun w => !(pyBlank w))).isEmpty = true ∨
      (["LOC"] : List String) = []) ∧
    entityCluster (fun _ => [("Paris", "LOC")]) ["visit Paris"] ["LOC"] ["", "  "] =
      ([], ["visit Paris"]) :=
  ⟨Or.inl (by decide),
   claim_C4 (fun _ => [("Paris", "LOC")]) ["visit Paris"] ["LOC"] ["", "  "]
     (Or.inl (by decide))⟩

/-- Claim C8: with no non-blank user keyword, ClusterByUserKeys.cluster returns the
input cluster map and phrase list unchanged; otherwise each phrase is appended, for
every keyword whose lowercased text occurs in the lowercased phrase, under that
keyword's original-case key (created if absent), and the unclustered output is exactly
the phrases absent from the union of all cluster values; in particular on
`["apple pie", "banana"]`, `{}`, `["apple"]` it returns `({"apple": ["apple pie"]}, ["banana"])`. -/
theorem claim_C8 (phrases : List String) (clusters : ClusterMap) (myKeys : List String) :
    ((myKeys.filter (fun w => !(pyBlank w))).isEmpty = true →
      userKeysCluster phrases clusters myKeys = (clusters, phrases)) ∧
    ((myKeys.filter (fun w => !(pyBlank w))).isEmpty = false →
      (∀ k, lookupA (userKeysCluster phrases clusters myKeys).1 k =
        if keyContrib myKeys phrases k = [] then lookupA clusters k
        else some ((lookupA clusters k).getD [] ++ keyContrib myKeys phrases k)) ∧
      (userKeysCluster phrases clusters myKeys).2 =
        phrases.filter (fun p =>
          !((((userKeysCluster phrases clusters myKeys).1.map Prod.snd).flatten).contains p))) ∧
    userKeysCluster ["apple pie", "banana"] [] ["apple"] =
      ([("apple", ["apple pie"])], ["banana"]) := by
  refine ⟨?_, ?_, by decide⟩
  · intro h
    simp [userKeysCluster, h]
  · intro h
    constructor
    · intro k
      have hres : (userKeysCluster phrases clusters myKeys).1 =
          phrases.foldl (userKeysStep myKeys) clusters := by
        simp [userKeysCluster, h]
      rw [hres]
      exact lookupA_foldPhrases myKeys phrases clusters k
    · simp [userKeysCluster, h]

theorem claim_C8_witness :
    (((["apple"] : List String).filter (fun w => !(pyBlank w))).isEmpty = false) ∧
    lookupA (userKeysCluster ["apple pie", "banana"] [] ["apple"]).1 "apple" =
      (if keyContrib ["apple"] ["apple pie", "banana"] "apple" = [] then
        lookupA ([] : ClusterMap) "apple"
      else some ((lookupA ([] : ClusterMap) "apple").getD [] ++
        keyContrib ["apple"] ["apple pie", "banana"] "apple")) ∧
    userKeysCluster ["x"] [("k", ["v"])] [" "] = ([("k", ["v"])], ["x"]) :=
  ⟨by decide,
   ((claim_C8 ["apple pie", "banana"] [] ["apple"]).2.1 (by decide)).1 "apple",
   (claim_C8 ["x"] [("k", ["v"])] [" "]).1 (by decide)⟩

/-- Claim C1 is false as stated: the embedding stage's merge writes each derived
cluster name with dict assignment, so a derived name equal to a pre-existing key
replaces that key's phrase list. Here the single KMeans group over
`["zebra zebra yak"]` is named `"zebra / yak"`, which collides with the existing key,
and the previously stored phrase `"old zebra phrase"` is gone from the final map. -/
theorem claim_C1_counterexample :
    (kmeansCluster nltkStopWords (fun _ => 0) (fun _ => [0])
        ["zebra zebra yak"] [("zebra / yak", ["old zebra phrase"])] 1 2).toOption =
      some [("zebra / yak", ["zebra zebra yak"])] ∧
    lookupA [("zebra / yak", ["old zebra phrase"])] "zebra / yak" =
      some ["old zebra phrase"] := by
  have hk : optimalK 1 2 (fun _ => (0 : ℚ)) = .ok 1 := by
    simp [optimalK, inertiaList, npGradient, argmaxIdx, argmaxAux, Except.map,
      List.range_succ]
  refine ⟨?_, by decide⟩
  unfold kmeansCluster
  rw [hk]
  decide

/-- Claim C1 amended: the keyword stage only appends — every list already present in
the cluster map is a prefix of that key's final list — and the embedding stage merges
with "last writer wins" dict assignment: a key's final value is the last group
assigned under that name when one exists (so a derived name equal to an existing key
replaces the earlier phrases), and the unchanged prior value otherwise; no stage ever
removes a key. -/
theorem claim_C1_amended :
    (∀ (phrases : List String) (clusters : ClusterMap) (myKeys : List String)
        (k : String) (v : List String),
      lookupA clusters k = some v →
        ∃ w, lookupA (userKeysCluster phrases clusters myKeys).1 k = some (v ++ w)) ∧
    (∀ (stop : List String) (labels : List Int) (phrases : List String)
        (clusters : ClusterMap) (k : String),
      lookupA (kmeansMerge clusters (kmeansAssignments stop labels phrases)) k =
        match lastAssigned (kmeansAssignments stop labels phrases) k with
        | some v => some v
        | none => lookupA clusters k) ∧
    (∀ (stop : List String) (inertiaOf : Nat → ℚ) (labelsOf : Nat → List Int)
        (phrases : List String) (clusters : ClusterMap) (minC maxC : Nat),
      minC < maxC → phrases ≠ [] →
        ∃ k, kmeansCluster stop inertiaOf labelsOf phrases clusters minC maxC =
          .ok (kmeansMerge clusters (kmeansAssignments stop (labelsOf k) phrases))) := by
  refine ⟨?_, ?_, ?_⟩
  · intro phrases clusters myKeys k v hv
    by_cases h : (myKeys.filter (fun w => !(pyBlank w))).isEmpty = true
    · refine ⟨[], ?_⟩
      simp [userKeysCluster, h, hv]
    · have h' : (myKeys.filter (fun w => !(pyBlank w))).isEmpty = false := by
        cases hh : (myKeys.filter (fun w => !(pyBlank w))).isEmpty
        · rfl
        · exact absurd hh h
      have hres : (userKeysCluster phrases clusters myKeys).1 =
          phrases.foldl (userKeysStep myKeys) clusters := by
        simp [userKeysCluster, h']
      rw [hres, lookupA_foldPhrases myKeys phrases clusters k]
      by_cases hc : keyContrib myKeys phrases k = []
      · exact ⟨[], by simp [hc, hv]⟩
      · exact ⟨keyContrib myKeys phrases k, by simp [hc, hv]⟩
  · intro stop labels phrases clusters k
    exact lookupA_kmeansMerge k (kmeansAssignments stop labels phrases) clusters
  · intro stop inertiaOf labelsOf phrases clusters minC maxC hlt hne
    have hlen : (inertiaList minC maxC inertiaOf).length = maxC + 1 - minC := by
      simp [inertiaList]
    have hg : ¬ (inertiaList minC maxC inertiaOf).length < 2 := by
      rw [hlen]; omega
    have hopt : ∃ kk, optimalK minC maxC inertiaOf = .ok kk := by
      unfold optimalK npGradient
      rw [if_neg hg]
      exact ⟨_, rfl⟩
    obtain ⟨kk, hok⟩ := hopt
    have hemp : phrases.isEmpty = false := by
      cases phrases
      · exact absurd rfl hne
      · rfl
    refine ⟨kk, ?_⟩
    unfold kmeansCluster
    rw [hok, hemp]
    simp

theorem claim_C1_witness :
    (lookupA [("k", ["v"])] "k" = some ["v"]) ∧
    (∃ w, lookupA (userKeysCluster ["x"] [("k", ["v"])] ["q"]).1 "k" = some (["v"] ++ w)) ∧
    ((1 : Nat) < 2 ∧ (["a"] : List String) ≠ []) ∧
    (∃ k : Nat, kmeansCluster [] (fun _ => 0) (fun _ => []) ["a"] [] 1 2 =
      .ok (kmeansMerge [] (kmeansAssignments [] ([] : List Int) ["a"]))) :=
  ⟨by decide,
   claim_C1_amended.1 ["x"] [("k", ["v"])] ["q"] "k" ["v"] (by decide),
   ⟨by decide, by decide⟩,
   claim_C1_amended.2.2 [] (fun _ => 0) (fun _ => []) ["a"] [] 1 2 (by decide) (by decide)⟩

/-! ## Helper lemmas: entity bucket sizes -/

theorem keys_setdefaultAppend_mem {κ ν : Type} [DecidableEq κ]
    (k : κ) (p : ν) :
    ∀ m : AssocMap κ (List ν), k ∈ m.map Prod.fst →
      (setdefaultAppend m k p).map Prod.fst = m.map Prod.fst := by
  intro m
  induction m with
  | nil => intro hk; simp at hk
  | cons a rest ih =>
    obtain ⟨ak, av⟩ := a
    intro hk
    by_cases h1 : ak = k
    · simp [setdefaultAppend, h1]
    · have hk' : k ∈ rest.map Prod.fst := by
        simp only [List.map_cons, List.mem_cons] at hk
        rcases hk with hk | hk
        · exact absurd hk.symm h1
        · exact hk
      simp [setdefaultAppend, h1, ih hk']

theorem len_setdefaultAppend {κ ν : Type} [DecidableEq κ]
    (n : Nat) (k : κ) (p : ν) :
    ∀ m : AssocMap κ (List ν), (∀ kv ∈ m, n ≤ kv.2.length) → k ∈ m.map Prod.fst →
      ∀ kv ∈ setdefaultAppend m k p, n ≤ kv.2.length := by
  intro m
  induction m with
  | nil => intro _ hk; simp at hk
  | cons a rest ih =>
    obtain ⟨ak, av⟩ := a
    intro hall hk
    by_cases h1 : ak = k
    · intro kv hkv
      subst h1
      rw [setdefaultAppend, if_pos rfl] at hkv
      rcases List.mem_cons.mp hkv with hkv | hkv
      · subst hkv
        have := hall (ak, av) (by simp)
        simp at this ⊢
        omega
      · exact hall kv (List.mem_cons_of_mem _ hkv)
    · have hk' : k ∈ rest.map Prod.fst := by
        simp only [List.map_cons, List.mem_cons] at hk
        rcases hk with hk | hk
        · exact absurd hk.symm h1
        · exact hk
      intro kv hkv
      rw [setdefaultAppend, if_neg h1] at hkv
      rcases List.mem_cons.mp hkv with hkv | hkv
      · subst hkv
        exact hall (ak, av) (by simp)
      · exact ih (fun kv h => hall kv (List.mem_cons_of_mem _ h)) hk' kv hkv

theorem backfill_inner_preserve (p : String) (keys0 : List String) (ks : List String)
    (hks : ∀ e ∈ ks, e ∈ keys0) :
    ∀ acc : ClusterMap, acc.map Prod.fst = keys0 → (∀ kv ∈ acc, 2 ≤ kv.2.length) →
      (ks.foldl (fun acc2 e =>
        if pyIn (pyLower e) (pyLower p) && !(((lookupA acc2 e).getD []).contains p) then
          setdefaultAppend acc2 e p
        else acc2) acc).map Prod.fst = keys0 ∧
      ∀ kv ∈ ks.foldl (fun acc2 e =>
        if pyIn (pyLower e) (pyLower p) && !(((lookupA acc2 e).getD []).contains p) then
          setdefaultAppend acc2 e p
        else acc2) acc, 2 ≤ kv.2.length := by
  induction ks with
  | nil => intro acc hkeys hlen; exact ⟨hkeys, hlen⟩
  | cons e rest ih =>
    intro acc hkeys hlen
    have hrest : ∀ x ∈ rest, x ∈ keys0 := fun x hx => hks x (List.mem_cons_of_mem _ hx)
    have he : e ∈ keys0 := hks e (List.mem_cons_self _ _)
    rw [List.foldl_cons]
    by_cases hc : (pyIn (pyLower e) (pyLower p) &&
        !(((lookupA acc e).getD []).contains p)) = true
    · rw [if_pos hc]
      have hkeys' : (setdefaultAppend acc e p).map Prod.fst = keys0 := by
        rw [keys_setdefaultAppend_mem e p acc (hkeys ▸ he)]
        exact hkeys
      have hlen' : ∀ kv ∈ setdefaultAppend acc e p, 2 ≤ kv.2.length :=
        len_setdefaultAppend 2 e p acc hlen (hkeys ▸ he)
      exact ih hrest _ hkeys' hlen'
    · rw [if_neg hc]
      exact ih hrest acc hkeys hlen

theorem backfill_outer_preserve (keys0 : List String) (ps : List String)
    (ks : List String) (hks : ∀ e ∈ ks, e ∈ keys0) :
    ∀ acc : ClusterMap, acc.map Prod.fst = keys0 → (∀ kv ∈ acc, 2 ≤ kv.2.length) →
      ∀ kv ∈ ps.foldl (fun acc p =>
        ks.foldl (fun acc2 e =>
          if pyIn (pyLower e) (pyLower p) && !(((lookupA acc2 e).getD []).contains p) then
            setdefaultAppend acc2 e p
          else acc2) acc) acc, 2 ≤ kv.2.length := by
  induction ps with
  | nil => intro acc _ hlen; exact hlen
  | cons p rest ih =>
    intro acc hkeys hlen
    rw [List.foldl_cons]
    obtain ⟨hkeys', hlen'⟩ := backfill_inner_preserve p keys0 ks hks acc hkeys hlen
    exact ih _ hkeys' hlen'

theorem entityFiltered_bounds (ner : NerOracle) (phrases entities stopEntity : List String) :
    ∀ kv ∈ entityFiltered ner phrases entities stopEntity,
      2 ≤ kv.2.length ∧ kv.2.length ≤ 39 := by
  intro kv hkv
  unfold entityFiltered at hkv
  have := List.of_mem_filter hkv
  simp only [Bool.and_eq_true, decide_eq_true_eq] at this
  omega

theorem entityBackfill_min_len (ner : NerOracle)
    (phrases entities stopEntity : List String) :
    ∀ kv ∈ entityBackfill ner phrases entities stopEntity, 2 ≤ kv.2.length := by
  unfold entityBackfill
  exact backfill_outer_preserve
    ((entityFiltered ner phrases entities stopEntity).map Prod.fst) _
    ((entityFiltered ner phrases entities stopEntity).map Prod.fst)
    (fun e he => he)
    (entityFiltered ner phrases entities stopEntity) rfl
    (fun kv hkv => (entityFiltered_bounds ner phrases entities stopEntity kv hkv).1)

/-- Claim C2 is false as stated: the 2-to-39 size filter runs before the back-fill
pass, and back-fill only adds phrases, so a kept bucket of size 39 can grow to 40.
Here 39 distinct phrases carry the entity `("q", "X")`, the bucket `"q"` passes the
filter at size 39, and the phrase `"zq"` (no detected entity, but containing `"q"`)
is back-filled, so the returned map holds a bucket of 40 phrases. -/
theorem claim_C2_counterexample :
    ((entityCluster
        (fun p => if p = "zq" then [] else [("q", "X")])
        ((List.range 39).map (fun i => "w" ++ toString i) ++ ["zq"])
        ["X"] ["stopword"]).1.any (fun kv => decide (40 ≤ kv.2.length))) = true := by
  decide

/-- Claim C2 amended: at the size-filter step every kept entity bucket has between 2
and 39 phrases inclusive, and buckets of size 1 never appear in the returned map; but
the substring back-fill pass can append further phrases to kept buckets, so the
returned filtered entity cluster map may contain buckets of size 40 or more. -/
theorem claim_C2_amended (ner : NerOracle) (phrases entities stopEntity : List String) :
    (∀ kv ∈ entityFiltered ner phrases entities stopEntity,
      2 ≤ kv.2.length ∧ kv.2.length ≤ 39) ∧
    (∀ kv ∈ (entityCluster ner phrases entities stopEntity).1, 2 ≤ kv.2.length) := by
  refine ⟨entityFiltered_bounds ner phrases entities stopEntity, ?_⟩
  intro kv hkv
  unfold entityCluster at hkv
  by_cases h1 : (stopEntity.filter (fun w => !(pyBlank w))).isEmpty = true
  · rw [if_pos h1] at hkv
    simp at hkv
  · rw [if_neg h1] at hkv
    by_cases h2 : entities.isEmpty = true
    · rw [if_pos h2] at hkv
      simp at hkv
    · rw [if_neg h2] at hkv
      simp only at hkv
      exact entityBackfill_min_len ner phrases entities stopEntity kv hkv

theorem claim_C2_witness :
    ("q", ["pa", "pb", "zq"]) ∈
      (entityCluster (fun p => if p = "zq" then [] else [("q", "X")])
        ["pa", "pb", "zq"] ["X"] ["stopword"]).1 ∧
    2 ≤ (("q", ["pa", "pb", "zq"]) : String × List String).2.length :=
  ⟨by decide,
   (claim_C2_amended (fun p => if p = "zq" then [] else [("q", "X")])
     ["pa", "pb", "zq"] ["X"] ["stopword"]).2 ("q", ["pa", "pb", "zq"]) (by decide)⟩

/-! ## Helper lemmas: deduplication -/

theorem dedupBy_perm {α : Type} (sig : α → String) :
    ∀ (l : List α) (seen : List String),
      ((dedupBy sig l seen).1 ++ (dedupBy sig l seen).2).Perm l := by
  intro l
  induction l with
  | nil => intro seen; simp [dedupBy]
  | cons p ps ih =>
    intro seen
    by_cases h : sig p ∈ seen
    · simp only [dedupBy, if_pos h]
      exact List.perm_middle.trans ((ih seen).cons p)
    · simp only [dedupBy, if_neg h]
      exact (ih (sig p :: seen)).cons p

theorem dedupBy_sublist_kept {α : Type} (sig : α → String) :
    ∀ (l : List α) (seen : List String), (dedupBy sig l seen).1.Sublist l := by
  intro l
  induction l with
  | nil => intro seen; simp [dedupBy]
  | cons p ps ih =>
    intro seen
    by_cases h : sig p ∈ seen
    · simp only [dedupBy, if_pos h]
      exact (ih seen).cons p
    · simp only [dedupBy, if_neg h]
      exact (ih (sig p :: seen)).cons₂ p

theorem dedupBy_sig_not_seen {α : Type} (sig : α → String) :
    ∀ (l : List α) (seen : List String),
      (∀ x ∈ (dedupBy sig l seen).1, sig x ∉ seen) ∧
      ((dedupBy sig l seen).1.map sig).Nodup := by
  intro l
  induction l with
  | nil => intro seen; simp [dedupBy]
  | cons p ps ih =>
    intro seen
    by_cases h : sig p ∈ seen
    · simp only [dedupBy, if_pos h]
      exact ih seen
    · simp only [dedupBy, if_neg h]
      obtain ⟨ihn, ihd⟩ := ih (sig p :: seen)
      constructor
      · intro x hx
        rcases List.mem_cons.mp hx with hx | hx
        · subst hx; exact h
        · intro hs
          exact ihn x hx (List.mem_cons_of_mem _ hs)
      · rw [List.map_cons, List.nodup_cons]
        refine ⟨?_, ihd⟩
        intro hmem
        obtain ⟨x, hx, hsx⟩ := List.mem_map.mp hmem
        exact ihn x hx (hsx ▸ List.mem_cons_self _ _)

theorem dedupBy_map {α β : Type} (sig : β → String) (f : α → β) :
    ∀ (l : List α) (seen : List String),
      dedupBy sig (l.map f) seen =
        ((dedupBy (fun a => sig (f a)) l seen).1.map f,
         (dedupBy (fun a => sig (f a)) l seen).2.map f) := by
  intro l
  induction l with
  | nil => intro seen; simp [dedupBy]
  | cons p ps ih =>
    intro seen
    rw [List.map_cons]
    by_cases h : sig (f p) ∈ seen
    · simp [dedupBy, if_pos h, ih seen]
    · simp [dedupBy, if_neg h, ih (sig (f p) :: seen)]

theorem dedupBy_removed_witness {α : Type} (sig : α → String) (idx : α → Nat) :
    ∀ (l : List α) (seen : List String) (ks : List α),
      (∀ s ∈ seen, ∃ w ∈ ks, sig w = s ∧ ∀ a ∈ l, idx w < idx a) →
      List.Pairwise (fun a b => idx a < idx b) l →
      ∀ r ∈ (dedupBy sig l seen).2,
        ∃ w, (w ∈ ks ∨ w ∈ (dedupBy sig l seen).1) ∧ sig w = sig r ∧ idx w < idx r := by
  intro l
  induction l with
  | nil => intro seen ks _ _ r hr; simp [dedupBy] at hr
  | cons p ps ih =>
    intro seen ks hseen hpw r hr
    obtain ⟨hhead, htail⟩ := List.pairwise_cons.mp hpw
    by_cases h : sig p ∈ seen
    · simp only [dedupBy, if_pos h] at hr ⊢
      rcases List.mem_cons.mp hr with hr | hr
      · subst hr
        obtain ⟨w, hw, hws, hwi⟩ := hseen (sig r) h
        exact ⟨w, Or.inl hw, hws, hwi r (List.mem_cons_self _ _)⟩
      · have hseen' : ∀ s ∈ seen, ∃ w ∈ ks, sig w = s ∧ ∀ a ∈ ps, idx w < idx a := by
          intro s hs
          obtain ⟨w, hw, hws, hwi⟩ := hseen s hs
          exact ⟨w, hw, hws, fun a ha => hwi a (List.mem_cons_of_mem _ ha)⟩
        exact ih seen ks hseen' htail r hr
    · simp only [dedupBy, if_neg h] at hr ⊢
      have hseen' : ∀ s ∈ sig p :: seen,
          ∃ w ∈ ks ++ [p], sig w = s ∧ ∀ a ∈ ps, idx w < idx a := by
        intro s hs
        rcases List.mem_cons.mp hs with hs | hs
        · exact ⟨p, by simp, hs.symm, hhead⟩
        · obtain ⟨w, hw, hws, hwi⟩ := hseen s hs
          exact ⟨w, List.mem_append_left _ hw, hws,
            fun a ha => hwi a (List.mem_cons_of_mem _ ha)⟩
      obtain ⟨w, hw, hws, hwi⟩ := ih (sig p :: seen) (ks ++ [p]) hseen' htail r hr
      refine ⟨w, ?_, hws, hwi⟩
      rcases hw with hw | hw
      · rcases List.mem_append.mp hw with hw | hw
        · exact Or.inl hw
        · exact Or.inr (List.mem_cons.mpr (Or.inl (List.mem_singleton.mp hw)))
      · exact Or.inr (List.mem_cons_of_mem _ hw)

theorem withIdx_map_snd : ∀ (i : Nat) (l : List String),
    (withIdx i l).map Prod.snd = l := by
  intro i l
  induction l generalizing i with
  | nil => simp [withIdx]
  | cons p ps ih => simp [withIdx, ih]

theorem withIdx_fst_ge : ∀ (l : List String) (i : Nat), ∀ a ∈ withIdx i l, i ≤ a.1 := by
  intro l
  induction l with
  | nil => intro i a ha; simp [withIdx] at ha
  | cons p ps ih =>
    intro i a ha
    rcases List.mem_cons.mp ha with ha | ha
    · subst ha; exact Nat.le_refl i
    · exact Nat.le_of_succ_le (ih (i + 1) a ha)

theorem withIdx_pairwise : ∀ (l : List String) (i : Nat),
    List.Pairwise (fun a b : Nat × String => a.1 < b.1) (withIdx i l) := by
  intro l
  induction l with
  | nil => intro i; simp [withIdx]
  | cons p ps ih =>
    intro i
    rw [withIdx, List.pairwise_cons]
    refine ⟨?_, ih (i + 1)⟩
    intro b hb
    exact Nat.lt_of_lt_of_le (Nat.lt_succ_self i) (withIdx_fst_ge ps (i + 1) b hb)

theorem dedup_withIdx_firstness (sig : Nat × String → String) (phrases : List String) :
    ∀ ip ∈ (dedupBy sig (withIdx 0 phrases) []).2,
      ∃ jq, jq ∈ (dedupBy sig (withIdx 0 phrases) []).1 ∧
        sig jq = sig ip ∧ jq.1 < ip.1 := by
  intro ip hip
  have hvac : ∀ s ∈ ([] : List String), ∃ w ∈ ([] : List (Nat × String)),
      sig w = s ∧ ∀ a ∈ withIdx 0 phrases, Prod.fst w < Prod.fst a := by
    intro s hs
    simp at hs
  have hwit := dedupBy_removed_witness sig Prod.fst
    (withIdx 0 phrases) [] [] hvac (withIdx_pairwise phrases 0) ip hip
  obtain ⟨w, hw, hws, hwi⟩ := hwit
  rcases hw with hw | hw
  · simp at hw
  · exact ⟨w, hw, hws, hwi⟩

/-- Claim C3: RemoveDuplicates.delete returns `(kept, removed)` with `kept ++ removed`
a permutation of the input, `kept` a sublist of the input (first-occurrence order
preserved), no two kept phrases sharing a normalized signature, and — tracking input
positions — every removed occurrence has a kept occurrence of the same signature at a
strictly earlier input position, so the earliest phrase of each signature group is the
one kept. The NLTK tokenizer and lemmatizer are universally quantified oracles. -/
theorem claim_C3 (tokenize : String → List String) (lemmatize : String → String)
    (stop : List String) (phrases : List String) :
    ((removeDuplicatesDelete tokenize lemmatize stop phrases).1 ++
      (removeDuplicatesDelete tokenize lemmatize stop phrases).2).Perm phrases ∧
    (removeDuplicatesDelete tokenize lemmatize stop phrases).1.Sublist phrases ∧
    ((removeDuplicatesDelete tokenize lemmatize stop phrases).1.map
      (dupSignature tokenize lemmatize stop)).Nodup ∧
    (removeDuplicatesDelete tokenize lemmatize stop phrases).1 =
      (dedupBy (fun a => dupSignature tokenize lemmatize stop a.2)
        (withIdx 0 phrases) []).1.map Prod.snd ∧
    (removeDuplicatesDelete tokenize lemmatize stop phrases).2 =
      (dedupBy (fun a => dupSignature tokenize lemmatize stop a.2)
        (withIdx 0 phrases) []).2.map Prod.snd ∧
    (∀ ip ∈ (dedupBy (fun a => dupSignature tokenize lemmatize stop a.2)
        (withIdx 0 phrases) []).2,
      ∃ jq, jq ∈ (dedupBy (fun a => dupSignature tokenize lemmatize stop a.2)
        (withIdx 0 phrases) []).1 ∧
        dupSignature tokenize lemmatize stop jq.2 =
          dupSignature tokenize lemmatize stop ip.2 ∧ jq.1 < ip.1) := by
  have hbridge :
      dedupBy (dupSignature tokenize lemmatize stop)
        ((withIdx 0 phrases).map Prod.snd) [] =
      ((dedupBy (fun a => dupSignature tokenize lemmatize stop a.2)
          (withIdx 0 phrases) []).1.map Prod.snd,
       (dedupBy (fun a => dupSignature tokenize lemmatize stop a.2)
          (withIdx 0 phrases) []).2.map Prod.snd) :=
    dedupBy_map (dupSignature tokenize lemmatize stop) Prod.snd (withIdx 0 phrases) []
  rw [withIdx_map_snd] at hbridge
  simp only [removeDuplicatesDelete]
  refine ⟨dedupBy_perm (dupSignature tokenize lemmatize stop) phrases [],
    dedupBy_sublist_kept (dupSignature tokenize lemmatize stop) phrases [],
    (dedupBy_sig_not_seen (dupSignature tokenize lemmatize stop) phrases []).2, ?_, ?_, ?_⟩
  · rw [hbridge]
  · rw [hbridge]
  · exact dedup_withIdx_firstness (fun a => dupSignature tokenize lemmatize stop a.2) phrases

/-! ## Helper lemmas: argmax of the inertia gradient -/

theorem argmaxAux_spec (xs : List ℚ) :
    ∀ (pre : List ℚ) (bi : Nat) (bv : ℚ),
      bi < pre.length → pre.getD bi 0 = bv →
      (∀ j, j < pre.length → pre.getD j 0 ≤ bv) →
      (∀ j, j < bi → pre.getD j 0 < bv) →
      argmaxAux xs pre.length bi bv < (pre ++ xs).length ∧
      (∀ j, j < (pre ++ xs).length →
        (pre ++ xs).getD j 0 ≤ (pre ++ xs).getD (argmaxAux xs pre.length bi bv) 0) ∧
      (∀ j, j < argmaxAux xs pre.length bi bv →
        (pre ++ xs).getD j 0 < (pre ++ xs).getD (argmaxAux xs pre.length bi bv) 0) := by
  induction xs with
  | nil =>
    intro pre bi bv hbi hval hmax hstrict
    simp only [argmaxAux, List.append_nil]
    have hv : pre.getD bi 0 = bv := hval
    refine ⟨hbi, ?_, ?_⟩
    · intro j hj
      rw [hv]
      exact hmax j hj
    · intro j hj
      rw [hv]
      exact hstrict j hj
  | cons x xs ih =>
    intro pre bi bv hbi hval hmax hstrict
    have hlen1 : (pre ++ [x]).length = pre.length + 1 := by simp
    have hgx : (pre ++ [x]).getD pre.length 0 = x := by
      rw [List.getD_append_right pre [x] 0 pre.length (Nat.le_refl _)]
      simp
    have hglt : ∀ j, j < pre.length → (pre ++ [x]).getD j 0 = pre.getD j 0 := by
      intro j hj
      exact List.getD_append pre [x] 0 j hj
    by_cases hlt : bv < x
    · have h := ih (pre ++ [x]) pre.length x
        (by rw [hlen1]; exact Nat.lt_succ_self _) hgx
        (by
          intro j hj
          rw [hlen1] at hj
          rcases Nat.lt_succ_iff_lt_or_eq.mp hj with hj | hj
          · rw [hglt j hj]
            exact le_of_lt (lt_of_le_of_lt (hmax j hj) hlt)
          · subst hj
            rw [hgx])
        (by
          intro j hj
          rw [hglt j hj]
          exact lt_of_le_of_lt (hmax j hj) hlt)
      rw [hlen1] at h
      rw [List.append_assoc, List.singleton_append] at h
      simpa only [argmaxAux, if_pos hlt] using h
    · have hxle : x ≤ bv := le_of_not_lt hlt
      have h := ih (pre ++ [x]) bi bv
        (by rw [hlen1]; exact Nat.lt_succ_of_lt hbi)
        (by rw [hglt bi hbi]; exact hval)
        (by
          intro j hj
          rw [hlen1] at hj
          rcases Nat.lt_succ_iff_lt_or_eq.mp hj with hj | hj
          · rw [hglt j hj]
            exact hmax j hj
          · subst hj
            rw [hgx]
            exact hxle)
        (by
          intro j hj
          rw [hglt j (Nat.lt_trans hj hbi)]
          exact hstrict j hj)
      rw [hlen1] at h
      rw [List.append_assoc, List.singleton_append] at h
      simpa only [argmaxAux, if_neg hlt] using h

theorem argmaxIdx_spec (l : List ℚ) (hne : l ≠ []) :
    argmaxIdx l < l.length ∧
    (∀ j, j < l.length → l.getD j 0 ≤ l.getD (argmaxIdx l) 0) ∧
    (∀ j, j < argmaxIdx l → l.getD j 0 < l.getD (argmaxIdx l) 0) := by
  cases l with
  | nil => exact absurd rfl hne
  | cons x xs =>
    have h := argmaxAux_spec xs [x] 0 x (by simp) (by simp)
      (by
        intro j hj
        simp only [List.length_singleton] at hj
        interval_cases j
        simp)
      (by intro j hj; omega)
    simp only [List.length_singleton, List.singleton_append] at h
    exact h

/-- Claim C6: with min_clusters < max_clusters, ClusterUsingKMeans selects the final K
as min_clusters plus the index of the first maximum of the discrete gradient (numpy
gradient) of the recorded inertia sequence: the selected index attains the maximum of
the gradient and every earlier index is strictly below it. -/
theorem claim_C6 (minC maxC : Nat) (inertiaOf : Nat → ℚ) (h : minC < maxC) :
    ∃ g, npGradient (inertiaList minC maxC inertiaOf) = .ok g ∧
      optimalK minC maxC inertiaOf = .ok (minC + argmaxIdx g) ∧
      argmaxIdx g < g.length ∧
      (∀ j, j < g.length → g.getD j 0 ≤ g.getD (argmaxIdx g) 0) ∧
      (∀ j, j < argmaxIdx g → g.getD j 0 < g.getD (argmaxIdx g) 0) := by
  have hlen : (inertiaList minC maxC inertiaOf).length = maxC + 1 - minC := by
    simp [inertiaList]
  have hnl : ¬ (inertiaList minC maxC inertiaOf).length < 2 := by
    rw [hlen]; omega
  obtain ⟨g, hg⟩ : ∃ g, npGradient (inertiaList minC maxC inertiaOf) = .ok g := by
    unfold npGradient
    rw [if_neg hnl]
    exact ⟨_, rfl⟩
  have hgbody := hg
  unfold npGradient at hgbody
  rw [if_neg hnl] at hgbody
  simp only [Except.ok.injEq] at hgbody
  have hglen : g.length = (inertiaList minC maxC inertiaOf).length := by
    rw [← hgbody]
    simp
  have hgne : g ≠ [] := by
    intro hh
    rw [hh] at hglen
    simp at hglen
    omega
  obtain ⟨ha1, ha2, ha3⟩ := argmaxIdx_spec g hgne
  refine ⟨g, hg, ?_, ha1, ha2, ha3⟩
  unfold optimalK
  rw [hg]
  rfl

theorem claim_C6_witness :
    (1 : Nat) < 3 ∧
    (∃ g, npGradient (inertiaList 1 3
        (fun k => if k = 1 then (5 : ℚ) else if k = 2 then 3 else 2)) = .ok g ∧
      optimalK 1 3 (fun k => if k = 1 then (5 : ℚ) else if k = 2 then 3 else 2) =
        .ok (1 + argmaxIdx g) ∧
      argmaxIdx g < g.length ∧
      (∀ j, j < g.length → g.getD j 0 ≤ g.getD (argmaxIdx g) 0) ∧
      (∀ j, j < argmaxIdx g → g.getD j 0 < g.getD (argmaxIdx g) 0)) ∧
    optimalK 1 3 (fun k => if k = 1 then (5 : ℚ) else if k = 2 then 3 else 2) = .ok 3 :=
  ⟨by decide,
   claim_C6 1 3 (fun k => if k = 1 then (5 : ℚ) else if k = 2 then 3 else 2) (by decide),
   by
    simp [optimalK, inertiaList, npGradient, argmaxIdx, argmaxAux, Except.map,
      List.range', List.getElem!_cons_zero, List.getElem!_cons_succ, List.range_succ]
    norm_num⟩

/-- Claim C10: with min_clusters equal to max_clusters (accepted by the constructor)
and a non-empty phrase list, ClusterUsingKMeans.cluster raises instead of returning a
cluster map: the recorded inertia sequence has exactly one element and numpy's
gradient requires at least two. -/
theorem claim_C10 (stop : List String) (inertiaOf : Nat → ℚ) (labelsOf : Nat → List Int)
    (phrases : List String) (clusters : ClusterMap) (minC maxC : Nat)
    (h1 : phrases ≠ []) (h2 : minC = maxC) :
    kmeansCluster stop inertiaOf labelsOf phrases clusters minC maxC =
      .error "Shape of array too small to calculate a numerical gradient" := by
  subst h2
  have hone : minC + 1 - minC = 1 := by omega
  have hlen : (inertiaList minC minC inertiaOf).length = 1 := by
    simp [inertiaList, hone]
  have herr : optimalK minC minC inertiaOf =
      .error "Shape of array too small to calculate a numerical gradient" := by
    unfold optimalK npGradient
    rw [if_pos (by rw [hlen]; omega)]
    rfl
  have hemp : phrases.isEmpty = false := by
    cases phrases
    · exact absurd rfl h1
    · rfl
  unfold kmeansCluster
  rw [herr, hemp]
  simp

theorem claim_C10_witness :
    ((["a"] : List String) ≠ [] ∧ (2 : Nat) = 2) ∧
    kmeansCluster [] (fun _ => 0) (fun _ => []) ["a"] [] 2 2 =
      .error "Shape of array too small to calculate a numerical gradient" :=
  ⟨⟨by decide, rfl⟩,
   claim_C10 [] (fun _ => 0) (fun _ => []) ["a"] [] 2 2 (by decide) rfl⟩

/-- Claim C9 is false in its entity-label part: ClusterByEntity.__init__ never
validates the entities argument (the second check is a copy of the phrases check), so
constructing it with the non-string entity-label entry 42 succeeds instead of raising. -/
theorem claim_C9_counterexample :
    (entityInit (.list [.str "a"]) (.list [.int 42]) (.list [.str "x"])).isOk = true := by
  rfl

/-- Claim C9 amended: configuration errors fail fast at construction time — a
Controller phrase source that is neither a string nor a list raises, ClusterUsingKMeans
raises on non-integer bounds, bounds below 1, or min_clusters greater than
max_clusters, and a non-string entry in the phrases, stop-entity, or user-keyword
lists raises — but the entity-label list is never validated, so a non-string entity
label is silently accepted. -/
theorem claim_C9_amended :
    (∀ v : PyVal, isStrV v = false → isListV v = false →
      controllerInit v = .error "Uncorrect data.") ∧
    (∀ p c mn mx : PyVal,
      ((∀ a : Int, mn ≠ .int a) ∨ (∀ b : Int, mx ≠ .int b)) →
      ∃ e, kmeansInit p c mn mx = .error e) ∧
    (∀ (p c : PyVal) (a b : Int), (a < 1 ∨ b < 1 ∨ a > b) →
      ∃ e, kmeansInit p c (.int a) (.int b) = .error e) ∧
    (∀ (l : List PyVal) (ents se : PyVal), (∃ x ∈ l, isStrV x = false) →
      ∃ e, entityInit (.list l) ents se = .error e) ∧
    (∀ (phrases ents : PyVal) (l : List PyVal), (∃ x ∈ l, isStrV x = false) →
      ∃ e, entityInit phrases ents (.list l) = .error e) ∧
    (∀ (phrases c : PyVal) (l : List PyVal), (∃ x ∈ l, isStrV x = false) →
      ∃ e, userKeysInit phrases c (.list l) = .error e) ∧
    (entityInit (.list [.str "a"]) (.list [.int 42]) (.list [.str "x"])).isOk = true := by
  have hallfalse : ∀ (l : List PyVal), (∃ x ∈ l, isStrV x = false) →
      l.all isStrV = false := by
    intro l hx
    obtain ⟨x, hxl, hxf⟩ := hx
    cases ha : l.all isStrV
    · rfl
    · have := List.all_eq_true.mp ha x hxl
      rw [hxf] at this
      cases this
  refine ⟨?_, ?_, ?_, ?_, ?_, ?_, rfl⟩
  · intro v hs hl
    cases v <;> simp [controllerInit] <;> simp [isStrV, isListV] at hs hl
  · intro p c mn mx h
    cases hp : isListOfStr p
    · exact ⟨"Phrases must be a list of strings.", by simp [kmeansInit, hp]⟩
    · cases hc : (match c with
        | PyVal.pynone => true
        | d => isStrKeyListValDict d)
      · exact ⟨"Clusters must be a dictionary with string keys and list-of-strings values.", by simp [kmeansInit, hp, hc]⟩
      · rcases h with h | h
        · cases mn with
          | int a => exact absurd rfl (h a)
          | str s => cases mx <;> exact ⟨"min_clusters and max_clusters must be integers.", by simp [kmeansInit, hp, hc]⟩
          | list l => cases mx <;> exact ⟨"min_clusters and max_clusters must be integers.", by simp [kmeansInit, hp, hc]⟩
          | dict l => cases mx <;> exact ⟨"min_clusters and max_clusters must be integers.", by simp [kmeansInit, hp, hc]⟩
          | pynone => cases mx <;> exact ⟨"min_clusters and max_clusters must be integers.", by simp [kmeansInit, hp, hc]⟩
          | other => cases mx <;> exact ⟨"min_clusters and max_clusters must be integers.", by simp [kmeansInit, hp, hc]⟩
        · cases mx with
          | int b => exact absurd rfl (h b)
          | str s => cases mn <;> exact ⟨"min_clusters and max_clusters must be integers.", by simp [kmeansInit, hp, hc]⟩
          | list l => cases mn <;> exact ⟨"min_clusters and max_clusters must be integers.", by simp [kmeansInit, hp, hc]⟩
          | dict l => cases mn <;> exact ⟨"min_clusters and max_clusters must be integers.", by simp [kmeansInit, hp, hc]⟩
          | pynone => cases mn <;> exact ⟨"min_clusters and max_clusters must be integers.", by simp [kmeansInit, hp, hc]⟩
          | other => cases mn <;> exact ⟨"min_clusters and max_clusters must be integers.", by simp [kmeansInit, hp, hc]⟩
  · intro p c a b h
    cases hp : isListOfStr p
    · exact ⟨"Phrases must be a list of strings.", by simp [kmeansInit, hp]⟩
    · cases hc : (match c with
        | PyVal.pynone => true
        | d => isStrKeyListValDict d)
      · exact ⟨"Clusters must be a dictionary with string keys and list-of-strings values.", by simp [kmeansInit, hp, hc]⟩
      · by_cases h1 : a < 1 ∨ b < 1
        · exact ⟨"min_clusters and max_clusters must be positive integers.", by simp [kmeansInit, hp, hc, if_pos h1]⟩
        · have h2 : a > b := by tauto
          exact ⟨"min_clusters cannot be greater than max_clusters.", by
            simp only [kmeansInit, hp, hc]
            rw [if_neg h1, if_pos h2]
            simp⟩
  · intro l ents se hx
    have hbad : isListOfStr (PyVal.list l) = false := hallfalse l hx
    exact ⟨"Phrases must be a list of strings.", by simp [entityInit, hbad]⟩
  · intro phrases ents l hx
    have hbad : isListOfStr (PyVal.list l) = false := hallfalse l hx
    cases hp : isListOfStr phrases
    · exact ⟨"Phrases must be a list of strings.", by simp [entityInit, hp]⟩
    · exact ⟨"Stop_entity must be a list of strings if provided.", by simp [entityInit, hp, hbad]⟩
  · intro phrases c l hx
    have hbad : isListOfStr (PyVal.list l) = false := hallfalse l hx
    cases hp : isListOfStr phrases
    · exact ⟨"Phrases must be a list of strings.", by simp [userKeysInit, hp]⟩
    · cases hc : (match c with
        | PyVal.pynone => true
        | d => isStrKeyListValDict d)
      · exact ⟨"Clusters must be a dictionary with string keys and list-of-strings values.", by simp [userKeysInit, hp, hc]⟩
      · exact ⟨"My_keys must be a list of strings if provided.", by simp [userKeysInit, hp, hc, hbad]⟩

theorem claim_C9_witness :
    (isStrV PyVal.other = false ∧ isListV PyVal.other = false ∧
      controllerInit PyVal.other = .error "Uncorrect data.") ∧
    (∃ e, kmeansInit (.list [.str "a"]) .pynone .other (.int 5) = .error e) ∧
    (∃ e, kmeansInit (.list [.str "a"]) .pynone (.int 0) (.int 5) = .error e) ∧
    (∃ e, entityInit (.list [.int 1]) (.list [.str "P"]) .pynone = .error e) ∧
    (∃ e, entityInit (.list [.str "a"]) (.list [.str "P"]) (.list [.int 2]) = .error e) ∧
    (∃ e, userKeysInit (.list [.str "a"]) .pynone (.list [.int 7]) = .error e) :=
  ⟨⟨rfl, rfl, claim_C9_amended.1 PyVal.other rfl rfl⟩,
   claim_C9_amended.2.1 (.list [.str "a"]) .pynone .other (.int 5)
     (Or.inl (fun a h => PyVal.noConfusion h)),
   claim_C9_amended.2.2.1 (.list [.str "a"]) .pynone 0 5 (Or.inl (by decide)),
   claim_C9_amended.2.2.2.1 [.int 1] (.list [.str "P"]) .pynone
     ⟨.int 1, List.mem_singleton.mpr rfl, rfl⟩,
   claim_C9_amended.2.2.2.2.1 (.list [.str "a"]) (.list [.str "P"]) [.int 2]
     ⟨.int 2, List.mem_singleton.mpr rfl, rfl⟩,
   claim_C9_amended.2.2.2.2.2.1 (.list [.str "a"]) .pynone [.int 7]
     ⟨.int 7, List.mem_singleton.mpr rfl, rfl⟩⟩

end KeyCluster
